import Mathlib

/-!
Shallow embedding of the PDF outline extractor (document_processor.py and
main.py): span extraction, line assembly, line recombination, style
profiling, heading classification, hierarchy resolution, title resolution
and the per-document batch driver.  Geometry is modelled with exact
rationals, rounded font sizes with integers, and text with character lists.
-/

/-- Python str.strip on a character list: drop leading and trailing whitespace. -/
def pyStrip (l : List Char) : List Char :=
  ((l.dropWhile Char.isWhitespace).reverse.dropWhile Char.isWhitespace).reverse

/-- Python str.split() with no argument: the maximal runs of non-whitespace
characters, in order; leading/trailing/inner whitespace is discarded. -/
def pyWords (t : List Char) : List (List Char) :=
  match h : t.dropWhile Char.isWhitespace with
  | [] => []
  | c :: r =>
    (c :: r.takeWhile (fun x => !x.isWhitespace)) ::
      pyWords (r.dropWhile (fun x => !x.isWhitespace))
termination_by t.length
decreasing_by
  have h1 : (t.dropWhile Char.isWhitespace).length ≤ t.length :=
    (List.dropWhile_sublist _).length_le
  have h2 : (r.dropWhile (fun x => !x.isWhitespace)).length ≤ r.length :=
    (List.dropWhile_sublist _).length_le
  simp only [h, List.length_cons] at h1
  omega

/-- Python len(text.split()). -/
def wordCount (t : List Char) : ℕ := (pyWords t).length

/-- The tail of the anchored regex \d+(\.\d+)*\s after the leading digit run:
accepts ('.' digits+)* followed by one whitespace character.  The pattern is
deterministic because digits, '.', and whitespace are disjoint. -/
def afterDigits (u : List Char) : Bool :=
  match u with
  | [] => false
  | c :: r =>
    if c.isWhitespace then true
    else if c = '.' then
      if (r.takeWhile Char.isDigit).isEmpty then false
      else afterDigits (r.dropWhile Char.isDigit)
    else false
termination_by u.length
decreasing_by
  have h2 : (r.dropWhile Char.isDigit).length ≤ r.length :=
    (List.dropWhile_sublist _).length_le
  simp only [List.length_cons]
  omega

/-- Anchored match of the alternative \d+(\.\d+)*\s of the numbering regex. -/
def numPattern (t : List Char) : Bool :=
  !(t.takeWhile Char.isDigit).isEmpty && afterDigits (t.dropWhile Char.isDigit)

/-- Anchored match of the alternative [A-Z]\s of the numbering regex:
re.match anchors every alternative at position 0. -/
def capWs : List Char → Bool
  | c :: w :: _ => c.isUpper && w.isWhitespace
  | _ => false

/-- re.match(r'\^\d+(\.\d+)*\s|[A-Z]\s', text) is not None. -/
def has_numbering (t : List Char) : Bool := numPattern t || capWs t

/-- Does the first list begin with the second one (pattern)? -/
def leadsWith : List Char → List Char → Bool
  | _, [] => true
  | [], _ :: _ => false
  | c :: t, p :: ps => (c == p) && leadsWith t ps

/-- Python "arXiv" in text: substring test. -/
def containsArXiv (t : List Char) : Bool :=
  t.tails.any (fun s => leadsWith s "arXiv".toList)

/-- Match of the citation regex \[[A-Z]+[0-9]\x7b2,\x7d\] at the start of the
list: '[', one or more uppercase letters, at least two digits, ']'. -/
def citationAt : List Char → Bool
  | '[' :: rest =>
    !(rest.takeWhile Char.isUpper).isEmpty &&
      decide (2 ≤ ((rest.dropWhile Char.isUpper).takeWhile Char.isDigit).length) &&
      (match (rest.dropWhile Char.isUpper).dropWhile Char.isDigit with
       | ']' :: _ => true
       | _ => false)
  | _ => false

/-- re.search of the citation regex: a match starting at any position. -/
def hasCitation (t : List Char) : Bool := t.tails.any citationAt

/-- Python str.isupper over the ASCII model: at least one cased character and
no lowercase character. -/
def pyIsUpper (t : List Char) : Bool :=
  (t.any fun c => c.isUpper || c.isLower) && (t.all fun c => !c.isLower)

/-- re.match(r'\^\d', text) is not None: the text begins with a digit. -/
def startsDigit : List Char → Bool
  | c :: _ => c.isDigit
  | [] => false

/-- HEURISTICS_CONFIG['header_margin_percent']. -/
def header_margin_percent : ℚ := 10

/-- HEURISTICS_CONFIG['footer_margin_percent']. -/
def footer_margin_percent : ℚ := 10

/-- HEURISTICS_CONFIG['max_word_count']. -/
def max_word_count : ℕ := 20

/-- HEURISTICS_CONFIG['min_word_count']. -/
def min_word_count : ℕ := 1

/-- HEURISTICS_CONFIG['min_size_multiplier'] = 1.15. -/
def min_size_multiplier : ℚ := 23 / 20

/-- HEURISTICS_CONFIG['must_be_bold']. -/
def must_be_bold : Bool := true

/-- HEURISTICS_CONFIG['must_be_all_caps']. -/
def must_be_all_caps : Bool := true

/-- A bounding box (x0, y0, x1, y1) in page coordinates. -/
structure Rect where
  x0 : ℚ
  y0 : ℚ
  x1 : ℚ
  y1 : ℚ
deriving DecidableEq, Inhabited

/-- A reconstructed text line as built by _extract_all_lines: text, first
span style, union bbox, page number and page geometry. -/
structure Line where
  text : List Char
  size : ℤ
  font : List Char
  flags : ℕ
  color : ℤ
  bbox : Rect
  page : ℕ
  page_height : ℚ
  page_width : ℚ
deriving DecidableEq

/-- The minimum-word-count rejection branch of _is_heading:
word_count < min_word_count and not re.match(r'\^\d', text). -/
def min_word_reject (line : Line) : Bool :=
  decide (wordCount line.text < min_word_count) && !(startsDigit line.text)

/-- _is_heading: rejection filters (arXiv substring, header/footer margin,
citation, word counts) followed by the positive style signals. -/
def is_heading (line : Line) (body_font_size : ℚ) (body_color : ℤ) : Bool :=
  if containsArXiv line.text then false
  else if decide (line.bbox.y0 < line.page_height * (header_margin_percent / 100)) ||
          decide (line.page_height - line.page_height * (footer_margin_percent / 100) <
            line.bbox.y1) then false
  else if hasCitation line.text then false
  else if decide (max_word_count < wordCount line.text) then false
  else if min_word_reject line then false
  else
    decide (body_font_size * min_size_multiplier < (line.size : ℚ)) ||
    (if must_be_bold then line.flags &&& 16 != 0 else false) ||
    has_numbering line.text ||
    (if must_be_all_caps then pyIsUpper line.text else false)

/-- _classify_headings: keep exactly the lines accepted by _is_heading,
in their original order. -/
def classify_headings (all_lines : List Line) (body_font_size : ℚ)
    (body_color : ℤ) : List Line :=
  all_lines.filter (fun l => is_heading l body_font_size body_color)

/-- The merge condition of _recombine_lines: same page, rounded size and
font, and horizontally adjacent (gap in [0, size*0.8)) or vertically
adjacent (gap in [0, 5)). -/
def mergeCond (cur nxt : Line) : Bool :=
  (nxt.page == cur.page) && (nxt.size == cur.size) && (nxt.font == cur.font) &&
  ((decide (0 ≤ nxt.bbox.x0 - cur.bbox.x1) &&
      decide (nxt.bbox.x0 - cur.bbox.x1 < (cur.size : ℚ) * (4 / 5))) ||
   (decide (0 ≤ nxt.bbox.y0 - cur.bbox.y1) && decide (nxt.bbox.y0 - cur.bbox.y1 < 5)))

/-- Merging in _recombine_lines: concatenate texts with one space, union the
bboxes; every other field is kept from the current line. -/
def mergeLines (cur nxt : Line) : Line :=
  { cur with
    text := cur.text ++ ' ' :: nxt.text
    bbox := ⟨min cur.bbox.x0 nxt.bbox.x0, min cur.bbox.y0 nxt.bbox.y0,
             max cur.bbox.x1 nxt.bbox.x1, max cur.bbox.y1 nxt.bbox.y1⟩ }

/-- The greedy single pass of _recombine_lines from an open current line. -/
def recombineGo (cur : Line) : List Line → List Line
  | [] => [cur]
  | nxt :: rest =>
    if mergeCond cur nxt then recombineGo (mergeLines cur nxt) rest
    else cur :: recombineGo nxt rest

/-- _recombine_lines. -/
def recombine_lines : List Line → List Line
  | [] => []
  | l :: ls => recombineGo l ls

/-- A raw span as delivered by the parsing collaborator: unrounded size,
original-case font name. -/
structure TSpan where
  text : List Char
  size : ℚ
  font : List Char
  flags : ℕ
  color : ℤ
  bbox : Rect
deriving DecidableEq

/-- A parser line: a list of raw spans. -/
structure TLine where
  spans : List TSpan
deriving DecidableEq

/-- A parser block: type (0 = text), bbox and lines. -/
structure TBlock where
  btype : ℕ
  bbox : Rect
  lines : List TLine
deriving DecidableEq

/-- A page: geometry plus parser blocks. -/
structure TPage where
  height : ℚ
  width : ℚ
  blocks : List TBlock
deriving DecidableEq

/-- Python round(): round half to even. -/
def pyRound (q : ℚ) : ℤ :=
  if q - ⌊q⌋ < 1 / 2 then ⌊q⌋
  else if 1 / 2 < q - ⌊q⌋ then ⌊q⌋ + 1
  else if ⌊q⌋ % 2 = 0 then ⌊q⌋ else ⌊q⌋ + 1

/-- An extracted span as built in _extract_all_lines: rounded size,
lowercased font, 1-based page number. -/
structure ESpan where
  text : List Char
  size : ℤ
  font : List Char
  flags : ℕ
  color : ℤ
  bbox : Rect
  page : ℕ
deriving DecidableEq, Inhabited

/-- The flat span list of one page (0-based index pnum), restricted to text
blocks, with rounded size and lowercased font. -/
def pageESpans (pnum : ℕ) (p : TPage) : List ESpan :=
  (p.blocks.filter (fun b => b.btype == 0)).flatMap (fun b =>
    b.lines.flatMap (fun ln =>
      ln.spans.map (fun s =>
        ⟨s.text, pyRound s.size, s.font.map Char.toLower, s.flags, s.color,
          s.bbox, pnum + 1⟩)))

/-- The sort key (page, bbox top, bbox left), as a boolean total preorder. -/
def spanKeyLE (a b : ESpan) : Bool :=
  decide (a.page < b.page) ||
  ((a.page == b.page) && (decide (a.bbox.y0 < b.bbox.y0) ||
    ((a.bbox.y0 == b.bbox.y0) && decide (a.bbox.x0 ≤ b.bbox.x0))))

/-- Stable sort of the page spans by (page, top, left). -/
def sortSpans (l : List ESpan) : List ESpan := l.mergeSort spanKeyLE

/-- The span grouping test of _extract_all_lines: vertically aligned
(|top difference| < 2) and horizontally adjacent (gap in [0, 10)). -/
def spanAdjacent (lastSpan cur : ESpan) : Bool :=
  decide (|cur.bbox.y0 - lastSpan.bbox.y0| < 2) &&
  decide (0 ≤ cur.bbox.x0 - lastSpan.bbox.x1) &&
  decide (cur.bbox.x0 - lastSpan.bbox.x1 < 10)

/-- Finalize one span group into a Line: concatenated stripped text (the
line is discarded when it is empty), first-span style, union bbox. -/
def lineOfGroup (ph pw : ℚ) (g : List ESpan) : Option Line :=
  let t := pyStrip ((g.map ESpan.text).flatten)
  if t.isEmpty then none
  else
    let fs := g.headD default
    some
      { text := t, size := fs.size, font := fs.font, flags := fs.flags,
        color := fs.color,
        bbox := ⟨(g.map (fun s => s.bbox.x0)).foldr min fs.bbox.x0,
                 (g.map (fun s => s.bbox.y0)).foldr min fs.bbox.y0,
                 (g.map (fun s => s.bbox.x1)).foldr max fs.bbox.x1,
                 (g.map (fun s => s.bbox.y1)).foldr max fs.bbox.y1⟩,
        page := fs.page, page_height := ph, page_width := pw }

/-- The grouping walk of _extract_all_lines; curRev is the open group in
reverse order (its head is the last span added). -/
def assembleGo (ph pw : ℚ) (curRev : List ESpan) : List ESpan → List Line
  | [] => (lineOfGroup ph pw curRev.reverse).toList
  | s :: rest =>
    if spanAdjacent (curRev.headD default) s then assembleGo ph pw (s :: curRev) rest
    else (lineOfGroup ph pw curRev.reverse).toList ++ assembleGo ph pw [s] rest

/-- Assemble the lines of one page from its sorted spans. -/
def assemblePage (ph pw : ℚ) (spans : List ESpan) : List Line :=
  match spans with
  | [] => []
  | s :: rest => assembleGo ph pw [s] rest

/-- _extract_all_lines over the whole document. -/
def extract_all_lines (pages : List TPage) : List Line :=
  pages.enum.flatMap (fun pr =>
    assemblePage pr.2.height pr.2.width (sortSpans (pageESpans pr.1 pr.2)))

/-- The keys of a Python Counter built from l: first-occurrence order,
no duplicates. -/
def firsts {α : Type} [DecidableEq α] : List α → List α
  | [] => []
  | a :: l => a :: firsts (l.filter (fun x => decide (x ≠ a)))
termination_by l => l.length
decreasing_by
  have := List.length_filter_le (fun x => decide (x ≠ a)) l
  simp only [List.length_cons]
  omega

/-- Counter(l).items(): keys in insertion order with their multiplicities. -/
def counterItems {α : Type} [DecidableEq α] (l : List α) : List (α × ℕ) :=
  (firsts l).map (fun k => (k, l.count k))

/-- Stable selection of the item with the largest count (the head of a
stable sort by count descending, as in Counter.most_common). -/
def selectTop {α : Type} : List (α × ℕ) → Option (α × ℕ)
  | [] => none
  | p :: ps =>
    match selectTop ps with
    | none => some p
    | some q => if p.2 < q.2 then some q else some p

/-- Counter(l).most_common(1)[0][0], as an Option for the empty list. -/
def most_common1 {α : Type} [DecidableEq α] (l : List α) : Option α :=
  (selectTop (counterItems l)).map Prod.fst

/-- Step 4 of process: the dominant rounded size, defaulting to 12.0. -/
def body_font_size (all_lines : List Line) : ℚ :=
  match most_common1 (all_lines.map Line.size) with
  | some s => (s : ℚ)
  | none => 12

/-- Step 4 of process: the dominant color, defaulting to 0. -/
def body_color (all_lines : List Line) : ℤ :=
  (most_common1 (all_lines.map Line.color)).getD 0

/-- An outline entry {level, text, page}. -/
structure OutHeading where
  level : String
  text : List Char
  page : ℕ
deriving DecidableEq

/-- sorted(list(set(sizes)), reverse=True) of _determine_hierarchy. -/
def unique_sizes (sizes : List ℤ) : List ℤ :=
  (sizes.dedup).insertionSort (fun a b => b ≤ a)

/-- The size_to_level dictionary of _determine_hierarchy as a lookup on the
descending list of distinct sizes. -/
def size_to_level (u : List ℤ) (s : ℤ) : Option String :=
  if u.get? 0 = some s then some "H1"
  else if u.get? 1 = some s then some "H2"
  else if u.get? 2 = some s then some "H3"
  else none

/-- _determine_hierarchy: map the three largest distinct heading sizes to
H1, H2, H3 and drop every other heading, preserving order. -/
def determine_hierarchy (hs : List Line) : List OutHeading :=
  match hs with
  | [] => []
  | _ :: _ =>
    hs.filterMap (fun h =>
      (size_to_level (unique_sizes (hs.map Line.size)) h.size).map
        (fun lv => ⟨lv, h.text, h.page⟩))

/-- The literal fallback title. -/
def untitledFallback : List Char := "Untitled Document".toList

/-- The blocks scanned by the title fallback: text blocks whose bbox bottom
lies above half the page height. -/
def upperBlocks (p : TPage) : List TBlock :=
  p.blocks.filter (fun b => (b.btype == 0) && decide (b.bbox.y1 < p.height / 2))

/-- The raw sizes of every span in the scanned blocks. -/
def upperRawSizes (p : TPage) : List ℚ :=
  (upperBlocks p).flatMap (fun b =>
    b.lines.flatMap (fun ln => ln.spans.map TSpan.size))

/-- largest_size in _get_document_title: running maximum, started at 0. -/
def largest_size (p : TPage) : ℚ := (upperRawSizes p).foldr max 0

/-- title_candidates in _get_document_title: stripped text of every line of
a scanned block whose first span has the rounded largest size. -/
def title_candidates (p : TPage) : List (List Char) :=
  (upperBlocks p).flatMap (fun b =>
    b.lines.filterMap (fun ln =>
      match ln.spans with
      | [] => none
      | s0 :: _ =>
        if pyRound s0.size = pyRound (largest_size p)
        then some (pyStrip ((ln.spans.map TSpan.text).flatten))
        else none))

/-- The fallback branch of _get_document_title. -/
def fallback_title (pages : List TPage) : List Char :=
  match pages with
  | [] => untitledFallback
  | p :: _ =>
    if (title_candidates p).isEmpty then untitledFallback
    else List.intercalate [' '] (title_candidates p)

/-- _get_document_title: usable metadata title, else first-page fallback. -/
def get_document_title (meta : Option (List Char)) (pages : List TPage) :
    List Char :=
  match meta with
  | some t =>
    if t.isEmpty then fallback_title pages
    else
      let t' := pyStrip t
      if !t'.isEmpty && decide (5 < t'.length) &&
          !(leadsWith (t'.map Char.toLower) "untitled".toList)
      then t'
      else fallback_title pages
  | none => fallback_title pages

/-- process: the per-document pipeline, returning (title, outline). -/
def process (meta : Option (List Char)) (pages : List TPage) :
    List Char × List OutHeading :=
  let title := get_document_title meta pages
  let all_lines := recombine_lines (extract_all_lines pages)
  let bfs := body_font_size all_lines
  let bc := body_color all_lines
  (title, determine_hierarchy (classify_headings all_lines bfs bc))

/-- The outcome of running the pipeline on one document: a result or a
raised exception message. -/
inductive DocOutcome where
  | ok (title : List Char) (outline : List OutHeading)
  | fail (msg : List Char)
deriving DecidableEq

/-- One JSON file written by main: an outline or an error object
with the fields error and details. -/
inductive OutFile where
  | outline (title : List Char) (outline : List OutHeading)
  | errorObj (error details : List Char)
deriving DecidableEq

/-- filename.lower().endswith(".pdf"). -/
def isPdfName (n : List Char) : Bool :=
  leadsWith (n.map Char.toLower).reverse (".pdf".toList.reverse)

/-- os.path.splitext(filename)[0]: everything before the last dot. -/
def stemName (n : List Char) : List Char :=
  if '.' ∈ n then ((n.reverse.dropWhile (fun c => !(c == '.'))).drop 1).reverse
  else n

/-- The per-document try/except boundary of main: a success writes the
outline, an exception writes the error object for this document. -/
def handle_doc (name : List Char) (r : DocOutcome) : OutFile :=
  match r with
  | .ok t o => .outline t o
  | .fail e => .errorObj ("Failed to process ".toList ++ name) e

/-- The batch loop of main: each .pdf file yields one output file named
after its stem; other files are skipped. -/
def run_batch (docs : List (List Char × DocOutcome)) :
    List (List Char × OutFile) :=
  docs.filterMap (fun d =>
    if isPdfName d.1 then some (stemName d.1 ++ ".json".toList, handle_doc d.1 d.2)
    else none)

/-- C9: Heading classification is independent of the dominant color: the
body_color argument of _is_heading is never consulted, so the verdict is
the same for any two color baselines. -/
theorem classifier_color_independent (line : Line) (bfs : ℚ) (c1 c2 : ℤ) :
    is_heading line bfs c1 = is_heading line bfs c2 := rfl

/-- C2: a line whose bbox top edge lies in the top 10 percent of the page or
whose bbox bottom edge lies in the bottom 10 percent is classified as body
text whatever its size, boldness, numbering and capitalization: the margin
rejection filter precedes every positive signal. -/
theorem margin_rejection_precedence (line : Line) (bfs : ℚ) (bc : ℤ)
    (h : line.bbox.y0 < line.page_height * (10 / 100) ∨
         line.page_height - line.page_height * (10 / 100) < line.bbox.y1) :
    is_heading line bfs bc = false := by
  have hc : (decide (line.bbox.y0 < line.page_height * (header_margin_percent / 100)) ||
      decide (line.page_height - line.page_height * (footer_margin_percent / 100) <
        line.bbox.y1)) = true := by
    rcases h with h | h <;> simp [header_margin_percent, footer_margin_percent, h]
  unfold is_heading
  rw [hc]
  split <;> rfl

/-- A size-30 bold all-caps line at y = 2 on a page of height 100 sits in the
header margin and is rejected. -/
def marginLine : Line :=
  ⟨"BIG BOLD HEADING".toList, 30, "helv".toList, 16, 0, ⟨10, 2, 50, 5⟩, 1, 100, 100⟩

/-- Witness for C2 at a concrete in-margin line. -/
theorem margin_rejection_precedence_witness :
    (marginLine.bbox.y0 < marginLine.page_height * (10 / 100) ∨
      marginLine.page_height - marginLine.page_height * (10 / 100) < marginLine.bbox.y1) ∧
    is_heading marginLine 12 0 = false :=
  ⟨Or.inl (by norm_num [marginLine]),
    margin_rejection_precedence marginLine 12 0 (Or.inl (by norm_num [marginLine]))⟩

/-- C5: an exception while processing one .pdf document becomes the error
object for exactly that document, and the outputs of the documents before
and after it are exactly those of the unchanged sub-batches. -/
theorem batch_error_isolated (xs ys : List (List Char × DocOutcome))
    (n e : List Char) (h : isPdfName n = true) :
    run_batch (xs ++ (n, DocOutcome.fail e) :: ys) =
      run_batch xs ++
        (stemName n ++ ".json".toList,
          OutFile.errorObj ("Failed to process ".toList ++ n) e) :: run_batch ys := by
  simp [run_batch, List.filterMap_append, h, handle_doc]

/-- Witness for C5: a crashing middle document between two healthy ones. -/
theorem batch_error_isolated_witness :
    isPdfName "b.pdf".toList = true ∧
    run_batch [("a.pdf".toList, DocOutcome.ok "A".toList []),
               ("b.pdf".toList, DocOutcome.fail "boom".toList),
               ("c.pdf".toList, DocOutcome.ok "C".toList [])] =
      run_batch [("a.pdf".toList, DocOutcome.ok "A".toList [])] ++
        (stemName "b.pdf".toList ++ ".json".toList,
          OutFile.errorObj ("Failed to process ".toList ++ "b.pdf".toList)
            "boom".toList) ::
        run_batch [("c.pdf".toList, DocOutcome.ok "C".toList [])] :=
  ⟨by decide,
    batch_error_isolated [("a.pdf".toList, DocOutcome.ok "A".toList [])]
      [("c.pdf".toList, DocOutcome.ok "C".toList [])]
      "b.pdf".toList "boom".toList (by decide)⟩

/-- Equality of every Line field except text and bbox. -/
def FrameEq (a b : Line) : Prop :=
  a.size = b.size ∧ a.font = b.font ∧ a.flags = b.flags ∧ a.color = b.color ∧
  a.page = b.page ∧ a.page_height = b.page_height ∧ a.page_width = b.page_width

theorem frameEq_refl (a : Line) : FrameEq a a :=
  ⟨rfl, rfl, rfl, rfl, rfl, rfl, rfl⟩

theorem frameEq_trans {a b c : Line} (h1 : FrameEq a b) (h2 : FrameEq b c) :
    FrameEq a c := by
  obtain ⟨e1, e2, e3, e4, e5, e6, e7⟩ := h1
  obtain ⟨f1, f2, f3, f4, f5, f6, f7⟩ := h2
  exact ⟨e1.trans f1, e2.trans f2, e3.trans f3, e4.trans f4, e5.trans f5,
    e6.trans f6, e7.trans f7⟩

theorem mergeLines_frame (cur nxt : Line) : FrameEq (mergeLines cur nxt) cur :=
  ⟨rfl, rfl, rfl, rfl, rfl, rfl, rfl⟩

theorem recombineGo_frame (rest : List Line) :
    ∀ (cur out : Line), out ∈ recombineGo cur rest →
      FrameEq out cur ∨ ∃ src ∈ rest, FrameEq out src := by
  induction rest with
  | nil =>
    intro cur out hout
    simp only [recombineGo, List.mem_singleton] at hout
    exact Or.inl (hout ▸ frameEq_refl out)
  | cons nxt rest ih =>
    intro cur out hout
    simp only [recombineGo] at hout
    by_cases hm : mergeCond cur nxt = true
    · rw [if_pos hm] at hout
      rcases ih (mergeLines cur nxt) out hout with h | ⟨src, hs, hf⟩
      · exact Or.inl (frameEq_trans h (mergeLines_frame cur nxt))
      · exact Or.inr ⟨src, List.mem_cons_of_mem _ hs, hf⟩
    · rw [if_neg hm] at hout
      rcases List.mem_cons.mp hout with h | h
      · exact Or.inl (h ▸ frameEq_refl out)
      · rcases ih nxt out h with h2 | ⟨src, hs, hf⟩
        · exact Or.inr ⟨nxt, List.mem_cons_self _ _, h2⟩
        · exact Or.inr ⟨src, List.mem_cons_of_mem _ hs, hf⟩

/-- C8: recombination changes only text and bbox: every surviving line agrees
with an assembled input line on size, font, flags, color, page and page
geometry; and heading classification returns its input lines unchanged
(membership), mutating nothing. -/
theorem recombine_frame_effect (ls : List Line) :
    (∀ out ∈ recombine_lines ls, ∃ src ∈ ls, FrameEq out src) ∧
    (∀ (bfs : ℚ) (bc : ℤ), ∀ h ∈ classify_headings (recombine_lines ls) bfs bc,
      h ∈ recombine_lines ls) := by
  constructor
  · intro out hout
    cases ls with
    | nil => simp [recombine_lines] at hout
    | cons l t =>
      simp only [recombine_lines] at hout
      rcases recombineGo_frame t l out hout with h | ⟨src, hs, hf⟩
      · exact ⟨l, List.mem_cons_self _ _, h⟩
      · exact ⟨src, List.mem_cons_of_mem _ hs, hf⟩
  · intro bfs bc h hh
    exact (List.mem_filter.mp hh).1

/-- A single line survives recombination untouched. -/
def soloLine : Line :=
  ⟨"Solo".toList, 12, "helv".toList, 0, 0, ⟨0, 50, 10, 55⟩, 1, 100, 100⟩

/-- Witness for C8 at a concrete singleton list. -/
theorem recombine_frame_effect_witness :
    soloLine ∈ recombine_lines [soloLine] ∧
    ∃ src ∈ [soloLine], FrameEq soloLine src :=
  ⟨by simp [recombine_lines, recombineGo],
    (recombine_frame_effect [soloLine]).1 soloLine
      (by simp [recombine_lines, recombineGo])⟩

/-- First line of the C6 counterexample: left edge at x = 0. -/
def c6A : Line := ⟨"aa".toList, 10, "f".toList, 0, 0, ⟨0, 0, 0, 0⟩, 1, 1000, 100⟩

/-- Second line: too far right (gap 20 ≥ 8) and too far down (gap 100 ≥ 5)
from c6A, so the first pass does not merge them. -/
def c6B : Line := ⟨"bb".toList, 10, "f".toList, 0, 0, ⟨20, 100, 30, 110⟩, 1, 1000, 100⟩

/-- Third line: vertically adjacent to c6B (gap 2 < 5) with a smaller left
edge x = 3; merging pulls the merged bbox left to x = 3, which lands within
horizontal reach (gap 3 < 8) of c6A on a second pass. -/
def c6C : Line := ⟨"cc".toList, 10, "f".toList, 0, 0, ⟨3, 112, 5, 113⟩, 1, 1000, 100⟩

theorem mergeCond_AB : mergeCond c6A c6B = false := by
  norm_num [mergeCond, c6A, c6B]

theorem mergeCond_BC : mergeCond c6B c6C = true := by
  norm_num [mergeCond, c6B, c6C]

theorem mergeCond_A_BC : mergeCond c6A (mergeLines c6B c6C) = true := by
  norm_num [mergeCond, mergeLines, c6A, c6B, c6C]

/-- C6 counterexample: the Line Recombiner is not idempotent; a second pass
over the output of the first pass merges further. -/
theorem recombine_idempotent_cex :
    recombine_lines (recombine_lines [c6A, c6B, c6C]) ≠
      recombine_lines [c6A, c6B, c6C] := by
  have e1 : recombine_lines [c6A, c6B, c6C] = [c6A, mergeLines c6B c6C] := by
    simp [recombine_lines, recombineGo, mergeCond_AB, mergeCond_BC]
  have e2 : recombine_lines [c6A, mergeLines c6B c6C] =
      [mergeLines c6A (mergeLines c6B c6C)] := by
    simp [recombine_lines, recombineGo, mergeCond_A_BC]
  rw [e1, e2]
  intro h
  have hlen := congrArg List.length h
  simp at hlen

theorem recombineGo_merge_free (rest : List Line) :
    ∀ cur : Line, List.Chain' (fun a b => mergeCond a b = false) (cur :: rest) →
      recombineGo cur rest = cur :: rest := by
  induction rest with
  | nil => intro cur _; rfl
  | cons nxt rest ih =>
    intro cur hch
    rw [List.chain'_cons] at hch
    simp only [recombineGo, hch.1, if_neg]
    rw [ih nxt hch.2]
    simp [hch.1]

/-- C6 amended: on any line list in which no adjacent pair satisfies the
merge condition, the Line Recombiner is the identity (hence idempotence
holds exactly on merge-free lists; a first pass can leave mergeable
neighbours behind, as the counterexample shows, because a bbox union can
shrink the left edge of the merged line). -/
theorem recombine_merge_free_id (ls : List Line)
    (h : List.Chain' (fun a b => mergeCond a b = false) ls) :
    recombine_lines ls = ls := by
  cases ls with
  | nil => rfl
  | cons l t => exact recombineGo_merge_free t l h

/-- Witness for the amended C6 on a concrete merge-free two-line list. -/
theorem recombine_merge_free_id_witness :
    List.Chain' (fun a b => mergeCond a b = false) [c6A, c6B] ∧
    recombine_lines [c6A, c6B] = [c6A, c6B] :=
  ⟨by simp [List.chain'_cons, List.chain'_singleton, mergeCond_AB],
    recombine_merge_free_id [c6A, c6B]
      (by simp [List.chain'_cons, List.chain'_singleton, mergeCond_AB])⟩

/-- The number of distinct sizes strictly greater than s among the heading
sizes: the rank of s (0 = largest distinct size). -/
def distinctAbove (sizes : List ℤ) (s : ℤ) : ℕ :=
  ((sizes.dedup).filter (fun x => decide (s < x))).length

/-- Level assignment as the specification words it: the largest distinct
size maps to H1, the second-largest (when it exists) to H2, the
third-largest (when it exists) to H3; a fourth-or-lower distinct size is
assigned no level at all. -/
def rank_level (sizes : List ℤ) (s : ℤ) : Option String :=
  match distinctAbove sizes s with
  | 0 => some "H1"
  | 1 => some "H2"
  | 2 => some "H3"
  | _ => none

theorem unique_sizes_strict_desc (sizes : List ℤ) :
    (unique_sizes sizes).Pairwise (fun a b => b < a) := by
  have hs : (unique_sizes sizes).Pairwise (fun a b : ℤ => b ≤ a) :=
    List.sorted_insertionSort (fun a b : ℤ => b ≤ a) (sizes.dedup)
  have hn : (unique_sizes sizes).Pairwise (fun a b : ℤ => a ≠ b) :=
    ((List.perm_insertionSort (fun a b : ℤ => b ≤ a) (sizes.dedup)).nodup_iff).mpr
      (List.nodup_dedup sizes)
  exact (hs.and hn).imp (fun h => lt_of_le_of_ne h.1 (Ne.symm h.2))

theorem unique_sizes_mem (sizes : List ℤ) (x : ℤ) :
    x ∈ unique_sizes sizes ↔ x ∈ sizes :=
  ((List.perm_insertionSort _ _).mem_iff).trans (List.mem_dedup)

theorem rank_of_get? :
    ∀ (v : List ℤ), v.Pairwise (fun a b => b < a) →
      ∀ (i : ℕ) (s : ℤ), v.get? i = some s →
        (v.filter (fun x => decide (s < x))).length = i := by
  intro v
  induction v with
  | nil => intro _ i s h; simp at h
  | cons a t ih =>
    intro hpw i s hi
    rw [List.pairwise_cons] at hpw
    cases i with
    | zero =>
      have ha : a = s := by simpa using hi
      subst ha
      simp only [List.filter_cons]
      rw [if_neg (by simp)]
      rw [List.length_eq_zero, List.filter_eq_nil_iff]
      intro x hx
      simp only [decide_eq_true_eq]
      exact lt_asymm (hpw.1 x hx)
    | succ j =>
      have hij : t.get? j = some s := by simpa using hi
      have hst : s ∈ t := List.get?_mem hij
      have hsa : s < a := hpw.1 s hst
      simp only [List.filter_cons]
      rw [if_pos (by simpa using hsa)]
      simp only [List.length_cons]
      rw [ih hpw.2 j s hij]

theorem distinctAbove_eq (sizes : List ℤ) (s : ℤ) :
    distinctAbove sizes s =
      ((unique_sizes sizes).filter (fun x => decide (s < x))).length :=
  ((List.perm_insertionSort _ _).filter _).length_eq.symm

theorem size_to_level_eq_rank (sizes : List ℤ) (s : ℤ) (hmem : s ∈ sizes) :
    size_to_level (unique_sizes sizes) s = rank_level sizes s := by
  have hpw := unique_sizes_strict_desc sizes
  obtain ⟨i, hi⟩ := List.mem_iff_get?.mp ((unique_sizes_mem sizes s).mpr hmem)
  have hru : ((unique_sizes sizes).filter (fun x => decide (s < x))).length = i :=
    rank_of_get? _ hpw i s hi
  have hda : distinctAbove sizes s = i := (distinctAbove_eq sizes s).trans hru
  have hnot : ∀ j : ℕ, j ≠ i → ¬((unique_sizes sizes).get? j = some s) := by
    intro j hj hc
    exact hj ((rank_of_get? _ hpw j s hc).symm.trans hru)
  unfold size_to_level rank_level
  rw [hda]
  rcases i with _ | _ | _ | j
  · rw [if_pos hi]
  · rw [if_neg (hnot 0 (by omega)), if_pos hi]
  · rw [if_neg (hnot 0 (by omega)), if_neg (hnot 1 (by omega)), if_pos hi]
  · rw [if_neg (hnot 0 (by omega)), if_neg (hnot 1 (by omega)),
      if_neg (hnot 2 (by omega))]
    rfl

/-- C1: for every non-empty list of classified heading lines,
_determine_hierarchy assigns each heading the level given by the rank of
its size among the distinct heading sizes (largest to H1, second-largest
to H2, third-largest to H3), drops every heading whose size is a
fourth-or-lower distinct size, and emits the survivors in their original
document order (a filterMap over the input list). -/
theorem hierarchy_rank_assignment (hs : List Line) (hne : hs ≠ []) :
    determine_hierarchy hs =
      hs.filterMap (fun h =>
        (rank_level (hs.map Line.size) h.size).map
          (fun lv => OutHeading.mk lv h.text h.page)) := by
  cases hs with
  | nil => exact absurd rfl hne
  | cons l t =>
    simp only [determine_hierarchy]
    apply List.filterMap_congr
    intro a ha
    rw [size_to_level_eq_rank _ _ (List.mem_map_of_mem Line.size ha)]

/-- A concrete heading list with four distinct sizes 20, 14, 12, 10. -/
def c1Line (s : ℤ) (t : List Char) : Line :=
  ⟨t, s, "helv".toList, 0, 0, ⟨0, 50, 10, 55⟩, 1, 100, 100⟩

/-- Witness for C1 on a four-size heading list. -/
theorem hierarchy_rank_assignment_witness :
    ([c1Line 10 "d".toList, c1Line 20 "a".toList, c1Line 14 "b".toList,
      c1Line 12 "c".toList] : List Line) ≠ [] ∧
    determine_hierarchy
        [c1Line 10 "d".toList, c1Line 20 "a".toList, c1Line 14 "b".toList,
          c1Line 12 "c".toList] =
      [c1Line 10 "d".toList, c1Line 20 "a".toList, c1Line 14 "b".toList,
        c1Line 12 "c".toList].filterMap (fun h =>
          (rank_level
            ([c1Line 10 "d".toList, c1Line 20 "a".toList, c1Line 14 "b".toList,
              c1Line 12 "c".toList].map Line.size) h.size).map
            (fun lv => OutHeading.mk lv h.text h.page)) :=
  ⟨by simp, hierarchy_rank_assignment _ (by simp)⟩

/-- The tail grammar of the numbering pattern: repeated '.digits' groups
followed by one whitespace character. -/
inductive GroupsThenWs : List Char → Prop where
  | ws (w : Char) (rest : List Char) (hw : w.isWhitespace = true) :
      GroupsThenWs (w :: rest)
  | grp (ds rest : List Char) (hne : ds ≠ [])
      (hds : ∀ c ∈ ds, c.isDigit = true)
      (htail : GroupsThenWs rest) : GroupsThenWs ('.' :: (ds ++ rest))

/-- The text begins with one or more digits, optionally followed by repeated
'.digits' groups, then whitespace. -/
def NumStart (t : List Char) : Prop :=
  ∃ ds rest, ds ≠ [] ∧ (∀ c ∈ ds, c.isDigit = true) ∧ t = ds ++ rest ∧
    GroupsThenWs rest

/-- The text begins with a single uppercase letter followed by whitespace. -/
def CapStart (t : List Char) : Prop :=
  ∃ c w rest, t = c :: w :: rest ∧ c.isUpper = true ∧ w.isWhitespace = true

theorem ws_not_digit (c : Char) (h : c.isWhitespace = true) :
    c.isDigit = false := by
  simp only [Char.isWhitespace, Bool.or_eq_true, decide_eq_true_eq] at h
  rcases h with ((h | h) | h) | h <;> (subst h; decide)

theorem takeWhile_eq_of_all {p : Char → Bool} :
    ∀ (ds rest : List Char), (∀ c ∈ ds, p c = true) →
      (∀ c, rest.head? = some c → p c = false) →
      (ds ++ rest).takeWhile p = ds ∧ (ds ++ rest).dropWhile p = rest := by
  intro ds
  induction ds with
  | nil =>
    intro rest _ hrest
    cases rest with
    | nil => exact ⟨rfl, rfl⟩
    | cons c r =>
      have hc := hrest c rfl
      exact ⟨by simp [List.takeWhile_cons, hc], by simp [List.dropWhile_cons, hc]⟩
  | cons d ds ih =>
    intro rest hds hrest
    have hd : p d = true := hds d (by simp)
    have hrec := ih rest (fun c hc => hds c (by simp [hc])) hrest
    exact ⟨by simp [List.takeWhile_cons, hd, hrec.1],
      by simp [List.dropWhile_cons, hd, hrec.2]⟩

theorem groups_head_not_digit {rest : List Char} (h : GroupsThenWs rest) :
    ∀ c, rest.head? = some c → c.isDigit = false := by
  intro c hc
  cases h with
  | ws w r hw =>
    have : w = c := by simpa using hc
    subst this
    exact ws_not_digit _ hw
  | grp ds r hne hds htail =>
    have : '.' = c := by simpa using hc
    subst this
    decide

theorem afterDigits_iff_aux :
    ∀ (n : ℕ) (u : List Char), u.length ≤ n →
      (afterDigits u = true ↔ GroupsThenWs u) := by
  intro n
  induction n with
  | zero =>
    intro u hu
    have : u = [] := List.length_eq_zero.mp (Nat.le_zero.mp hu)
    subst this
    constructor
    · intro h; simp [afterDigits] at h
    · intro h; cases h
  | succ n ih =>
    intro u hu
    cases u with
    | nil =>
      constructor
      · intro h; simp [afterDigits] at h
      · intro h; cases h
    | cons c r =>
      by_cases hw : c.isWhitespace = true
      · constructor
        · intro _; exact GroupsThenWs.ws c r hw
        · intro _; simp [afterDigits, hw]
      · have hw' : c.isWhitespace = false := Bool.eq_false_iff.mpr hw
        by_cases hdot : c = '.'
        · subst hdot
          by_cases hemp : (r.takeWhile Char.isDigit).isEmpty = true
          · constructor
            · intro haf
              simp [afterDigits, hw', hemp] at haf
            · intro hg
              exfalso
              cases hg with
              | ws w rest hws => exact hw hws
              | grp ds rest hne hds htail =>
                cases ds with
                | nil => exact hne rfl
                | cons d ds' =>
                  have hdd : d.isDigit = true := hds d (by simp)
                  simp [List.takeWhile_cons, hdd] at hemp
          · have hlen : (r.dropWhile Char.isDigit).length ≤ n := by
              have h1 : (r.dropWhile Char.isDigit).length ≤ r.length :=
                (List.dropWhile_sublist _).length_le
              simp only [List.length_cons] at hu
              omega
            have ihr := ih (r.dropWhile Char.isDigit) hlen
            have hunf : afterDigits ('.' :: r) =
                afterDigits (r.dropWhile Char.isDigit) := by
              simp [afterDigits, hw', hemp]
            rw [hunf, ihr]
            constructor
            · intro hg
              have hne : r.takeWhile Char.isDigit ≠ [] := by
                intro hc; rw [hc] at hemp; exact hemp rfl
              have hgrp := GroupsThenWs.grp (r.takeWhile Char.isDigit)
                (r.dropWhile Char.isDigit) hne
                (fun c hc => List.mem_takeWhile_imp hc) hg
              rwa [List.takeWhile_append_dropWhile] at hgrp
            · intro hg
              cases hg with
              | ws w rest hws => exact absurd hws (by decide)
              | grp ds rest hne hds htail =>
                have hsplit := takeWhile_eq_of_all ds rest hds
                  (groups_head_not_digit htail)
                rw [hsplit.2]
                exact htail
        · constructor
          · intro haf
            simp [afterDigits, hw', hdot] at haf
          · intro hg
            exfalso
            cases hg with
            | ws w rest hws => exact hw hws
            | grp ds rest _ _ _ => exact hdot rfl

theorem afterDigits_iff (u : List Char) :
    afterDigits u = true ↔ GroupsThenWs u :=
  afterDigits_iff_aux u.length u le_rfl

theorem numPattern_iff (t : List Char) : numPattern t = true ↔ NumStart t := by
  unfold numPattern
  rw [Bool.and_eq_true]
  constructor
  · rintro ⟨hne, haf⟩
    refine ⟨t.takeWhile Char.isDigit, t.dropWhile Char.isDigit, ?_, ?_, ?_, ?_⟩
    · intro hc
      rw [hc] at hne
      simp at hne
    · exact fun c hc => List.mem_takeWhile_imp hc
    · exact (List.takeWhile_append_dropWhile _ _).symm
    · exact (afterDigits_iff _).mp haf
  · rintro ⟨ds, rest, hne, hds, rfl, hg⟩
    have hsplit := takeWhile_eq_of_all ds rest hds (groups_head_not_digit hg)
    constructor
    · rw [hsplit.1]
      simpa using hne
    · rw [hsplit.2]
      exact (afterDigits_iff rest).mpr hg

theorem capWs_iff (t : List Char) : capWs t = true ↔ CapStart t := by
  cases t with
  | nil =>
    constructor
    · intro h; simp [capWs] at h
    · rintro ⟨c, w, rest, h, _, _⟩; simp at h
  | cons c t' =>
    cases t' with
    | nil =>
      constructor
      · intro h; simp [capWs] at h
      · rintro ⟨c', w', rest', h, _, _⟩; simp at h
    | cons w r =>
      constructor
      · intro h
        rw [capWs, Bool.and_eq_true] at h
        exact ⟨c, w, r, rfl, h.1, h.2⟩
      · rintro ⟨c', w', rest', heq, hu, hws⟩
        obtain ⟨rfl, rfl, rfl⟩ : c' = c ∧ w' = w ∧ rest' = r := by
          injection heq with h1 h2
          injection h2 with h2 h3
          exact ⟨h1.symm, h2.symm, h3.symm⟩
        rw [capWs, Bool.and_eq_true]
        exact ⟨hu, hws⟩

/-- C3: the numbering positive signal of _is_heading fires exactly when the
text begins with one or more digits optionally followed by repeated
'.digits' groups then whitespace, or begins with a single uppercase letter
followed by whitespace: re.match anchors both alternatives at position 0,
so an internal uppercase-letter-plus-whitespace occurrence never fires it. -/
theorem numbering_signal_anchored (t : List Char) :
    has_numbering t = true ↔ NumStart t ∨ CapStart t := by
  unfold has_numbering
  rw [Bool.or_eq_true, numPattern_iff, capWs_iff]

/-- Witness for C3: the signal fires on "1.2 Intro". -/
theorem numbering_signal_anchored_witness :
    has_numbering ("1.2 Intro".toList) = true :=
  (numbering_signal_anchored _).mpr
    (Or.inl ⟨['1'], '.' :: (['2'] ++ (' ' :: "Intro".toList)), by simp,
      by decide, by decide,
      GroupsThenWs.grp ['2'] (' ' :: "Intro".toList) (by simp) (by decide)
        (GroupsThenWs.ws ' ' "Intro".toList (by decide))⟩)

/-- x is the first-encountered value attaining the maximum multiplicity of
l: x occurs in l, no value occurs more often, and any other value with the
same multiplicity has no occurrence before the first occurrence of x. -/
def FirstMode {α : Type} [DecidableEq α] (l : List α) (x : α) : Prop :=
  x ∈ l ∧ (∀ y ∈ l, l.count y ≤ l.count x) ∧
  (∀ y ∈ l, l.count y = l.count x → y = x ∨
    ∃ l1 l2, l = l1 ++ x :: l2 ∧ x ∉ l1 ∧ y ∉ l1)

theorem mem_firsts_aux {α : Type} [DecidableEq α] :
    ∀ (n : ℕ) (l : List α), l.length ≤ n → ∀ x, (x ∈ firsts l ↔ x ∈ l) := by
  intro n
  induction n with
  | zero =>
    intro l hl x
    have : l = [] := List.length_eq_zero.mp (Nat.le_zero.mp hl)
    subst this
    simp [firsts]
  | succ n ih =>
    intro l hl x
    cases l with
    | nil => simp [firsts]
    | cons a t =>
      simp only [firsts, List.mem_cons]
      have hlen : (t.filter (fun x => decide (x ≠ a))).length ≤ n := by
        have := List.length_filter_le (fun x => decide (x ≠ a)) t
        simp only [List.length_cons] at hl
        omega
      rw [ih _ hlen x, List.mem_filter]
      constructor
      · rintro (rfl | ⟨hx, _⟩)
        · exact Or.inl rfl
        · exact Or.inr hx
      · rintro (rfl | hx)
        · exact Or.inl rfl
        · by_cases hxa : x = a
          · exact Or.inl hxa
          · exact Or.inr ⟨hx, by simp [hxa]⟩

theorem mem_firsts {α : Type} [DecidableEq α] (l : List α) (x : α) :
    x ∈ firsts l ↔ x ∈ l :=
  mem_firsts_aux l.length l le_rfl x

theorem selectTop_eq_none {α : Type} (ts : List (α × ℕ))
    (h : selectTop ts = none) : ts = [] := by
  cases ts with
  | nil => rfl
  | cons a t =>
    rw [selectTop] at h
    cases hrec : selectTop t with
    | none => rw [hrec] at h; exact absurd h (by simp)
    | some q => rw [hrec] at h; by_cases hlt : a.2 < q.2 <;> simp [hlt] at h

theorem selectTop_split {α : Type} :
    ∀ (items : List (α × ℕ)) (p : α × ℕ), selectTop items = some p →
      ∃ pre post, items = pre ++ p :: post ∧ (∀ q ∈ pre, q.2 < p.2) ∧
        (∀ q ∈ post, q.2 ≤ p.2) := by
  intro items
  induction items with
  | nil => intro p h; simp [selectTop] at h
  | cons a t ih =>
    intro p h
    cases hrec : selectTop t with
    | none =>
      simp only [selectTop, hrec] at h
      have hpa : a = p := by simpa using h
      subst hpa
      have ht : t = [] := selectTop_eq_none t hrec
      subst ht
      exact ⟨[], [], rfl, by simp, by simp⟩
    | some q =>
      simp only [selectTop, hrec] at h
      by_cases hlt : a.2 < q.2
      · rw [if_pos hlt] at h
        have hpq : q = p := by simpa using h
        subst hpq
        obtain ⟨pre, post, heq, hpre, hpost⟩ := ih q hrec
        refine ⟨a :: pre, post, by simp [heq], ?_, hpost⟩
        intro r hr
        rcases List.mem_cons.mp hr with rfl | hr
        · exact hlt
        · exact hpre r hr
      · rw [if_neg hlt] at h
        have hpa : a = p := by simpa using h
        subst hpa
        refine ⟨[], t, rfl, by simp, ?_⟩
        intro r hr
        obtain ⟨pre, post, heq, hpre, hpost⟩ := ih q hrec
        have hqa : q.2 ≤ a.2 := Nat.not_lt.mp hlt
        rw [heq] at hr
        rcases List.mem_append.mp hr with h1 | h1
        · exact le_trans (le_of_lt (hpre r h1)) hqa
        · rcases List.mem_cons.mp h1 with rfl | h1
          · exact hqa
          · exact le_trans (hpost r h1) hqa

theorem counterItems_mem_count {α : Type} [DecidableEq α] (l : List α) :
    ∀ q ∈ counterItems l, q.2 = l.count q.1 ∧ q.1 ∈ l := by
  intro q hq
  unfold counterItems at hq
  obtain ⟨k, hk, rfl⟩ := List.mem_map.mp hq
  exact ⟨rfl, (mem_firsts l k).mp hk⟩

theorem counterItems_mem_of_mem {α : Type} [DecidableEq α] (l : List α)
    (y : α) (hy : y ∈ l) : (y, l.count y) ∈ counterItems l :=
  List.mem_map_of_mem _ ((mem_firsts l y).mpr hy)

theorem map_eq_append_cons {α β : Type} (g : α → β) :
    ∀ (F : List α) (pre : List β) (q : β) (post : List β),
      F.map g = pre ++ q :: post →
      ∃ A b B, F = A ++ b :: B ∧ A.map g = pre ∧ g b = q ∧ B.map g = post := by
  intro F
  induction F with
  | nil =>
    intro pre q post h
    rw [List.map_nil] at h
    cases pre <;> simp at h
  | cons a F ih =>
    intro pre q post h
    cases pre with
    | nil =>
      simp only [List.map_cons, List.nil_append] at h
      injection h with h1 h2
      exact ⟨[], a, F, rfl, rfl, h1, h2⟩
    | cons p pre =>
      simp only [List.map_cons, List.cons_append] at h
      injection h with h1 h2
      obtain ⟨A, b, B, hF, hA, hb, hB⟩ := ih pre q post h2
      exact ⟨a :: A, b, B, by simp [hF], by simp [hA, h1], hb, hB⟩

theorem fo_split {α : Type} [DecidableEq α] (l : List α) (k : α) (h : k ∈ l) :
    ∃ l1 l2, l = l1 ++ k :: l2 ∧ k ∉ l1 := by
  induction l with
  | nil => simp at h
  | cons a t ih =>
    by_cases hak : a = k
    · exact ⟨[], t, by simp [hak], by simp⟩
    · have hkt : k ∈ t := by
        rcases List.mem_cons.mp h with h1 | h1
        · exact absurd h1.symm hak
        · exact h1
      obtain ⟨l1, l2, heq, hnot⟩ := ih hkt
      refine ⟨a :: l1, l2, by simp [heq], ?_⟩
      intro hc
      rcases List.mem_cons.mp hc with h1 | h1
      · exact hak h1.symm
      · exact hnot h1

theorem fo_unique {α : Type} : ∀ (t t' : List α) (k : α) (u u' : List α),
    t ++ k :: u = t' ++ k :: u' → k ∉ t → k ∉ t' → t = t' := by
  intro t
  induction t with
  | nil =>
    intro t' k u u' heq _ hkt'
    cases t' with
    | nil => rfl
    | cons b t'' =>
      rw [List.nil_append] at heq
      injection heq with h1 _
      exfalso
      apply hkt'
      rw [h1]
      exact List.mem_cons_self _ _
  | cons a t ih =>
    intro t' k u u' heq hkt hkt'
    cases t' with
    | nil =>
      rw [List.nil_append] at heq
      injection heq with h1 _
      exfalso
      apply hkt
      rw [← h1]
      exact List.mem_cons_self _ _
    | cons b t'' =>
      injection heq with h1 h2
      have hrec := ih t'' k u u' h2
        (fun hc => hkt (List.mem_cons_of_mem _ hc))
        (fun hc => hkt' (List.mem_cons_of_mem _ hc))
      rw [h1, hrec]

theorem filter_fo {α : Type} [DecidableEq α] (p : α → Bool) (l : List α)
    (f1 f2 : List α) (k y : α) (heq : l.filter p = f1 ++ k :: f2)
    (hk1 : k ∉ f1) (hy1 : y ∉ f1) (hpy : p y = true) :
    ∃ l1 l2, l = l1 ++ k :: l2 ∧ k ∉ l1 ∧ y ∉ l1 := by
  have hkmem : k ∈ l.filter p := by
    rw [heq]
    exact List.mem_append_right _ (List.mem_cons_self _ _)
  have hkl : k ∈ l := List.mem_of_mem_filter hkmem
  have hpk : p k = true := List.of_mem_filter hkmem
  obtain ⟨l1, l2, rfl, hknot⟩ := fo_split l k hkl
  refine ⟨l1, l2, rfl, hknot, ?_⟩
  intro hyl1
  have hfeq : (l1 ++ k :: l2).filter p = l1.filter p ++ k :: l2.filter p := by
    simp [List.filter_append, List.filter_cons, hpk]
  rw [hfeq] at heq
  have hknotf : k ∉ l1.filter p := fun hc => hknot (List.mem_of_mem_filter hc)
  have hf1 : l1.filter p = f1 := fo_unique _ _ k _ _ heq hknotf hk1
  apply hy1
  rw [← hf1]
  exact List.mem_filter.mpr ⟨hyl1, hpy⟩

theorem firsts_fo_aux {α : Type} [DecidableEq α] :
    ∀ (n : ℕ) (l : List α), l.length ≤ n →
      ∀ (A B : List α) (k y : α), firsts l = A ++ k :: B → y ∈ B →
        ∃ l1 l2, l = l1 ++ k :: l2 ∧ k ∉ l1 ∧ y ∉ l1 := by
  intro n
  induction n with
  | zero =>
    intro l hl A B k y heq _
    have : l = [] := List.length_eq_zero.mp (Nat.le_zero.mp hl)
    subst this
    rw [show firsts ([] : List α) = [] from by simp [firsts]] at heq
    cases A <;> simp at heq
  | succ n ih =>
    intro l hl A B k y heq hy
    cases l with
    | nil =>
      rw [show firsts ([] : List α) = [] from by simp [firsts]] at heq
      cases A <;> simp at heq
    | cons a t =>
      simp only [firsts] at heq
      cases A with
      | nil =>
        rw [List.nil_append] at heq
        injection heq with h1 _
        subst h1
        exact ⟨[], t, rfl, by simp, by simp⟩
      | cons a' A' =>
        injection heq with h1 h2
        have hlen : (t.filter (fun x => decide (x ≠ a))).length ≤ n := by
          have := List.length_filter_le (fun x => decide (x ≠ a)) t
          simp only [List.length_cons] at hl
          omega
        obtain ⟨l1, l2, hteq, hk1, hy1⟩ := ih _ hlen A' B k y h2 hy
        have hyB : y ∈ t.filter (fun x => decide (x ≠ a)) := by
          have hyf : y ∈ firsts (t.filter (fun x => decide (x ≠ a))) := by
            rw [h2]
            exact List.mem_append_right _ (List.mem_cons_of_mem _ hy)
          exact (mem_firsts _ _).mp hyf
        have hya : decide (y ≠ a) = true := (List.mem_filter.mp hyB).2
        obtain ⟨m1, m2, hm, hkm, hym⟩ :=
          filter_fo _ t l1 l2 k y hteq hk1 hy1 hya
        have hkB : k ∈ t.filter (fun x => decide (x ≠ a)) := by
          rw [hteq]
          exact List.mem_append_right _ (List.mem_cons_self _ _)
        have hka : ¬(k = a) := by
          simpa using (List.mem_filter.mp hkB).2
        have hya' : ¬(y = a) := by simpa using hya
        refine ⟨a :: m1, m2, by simp [hm], ?_, ?_⟩
        · intro hc
          rcases List.mem_cons.mp hc with h | h
          · exact hka h
          · exact hkm h
        · intro hc
          rcases List.mem_cons.mp hc with h | h
          · exact hya' h
          · exact hym h

theorem most_common1_firstMode {α : Type} [DecidableEq α] (l : List α)
    (h : l ≠ []) : ∃ x, most_common1 l = some x ∧ FirstMode l x := by
  have hne : counterItems l ≠ [] := by
    cases l with
    | nil => exact absurd rfl h
    | cons a t => simp [counterItems, firsts]
  obtain ⟨p, hp⟩ : ∃ p, selectTop (counterItems l) = some p := by
    cases hsel : selectTop (counterItems l) with
    | none => exact absurd (selectTop_eq_none _ hsel) hne
    | some q => exact ⟨q, rfl⟩
  obtain ⟨pre, post, heq, hpre, hpost⟩ := selectTop_split _ p hp
  have hpmem : p ∈ counterItems l := by
    rw [heq]
    exact List.mem_append_right _ (List.mem_cons_self _ _)
  obtain ⟨hp2, hp1mem⟩ := counterItems_mem_count l p hpmem
  refine ⟨p.1, by simp [most_common1, hp], hp1mem, ?_, ?_⟩
  · intro y hy
    have hyitem := counterItems_mem_of_mem l y hy
    rw [heq] at hyitem
    rcases List.mem_append.mp hyitem with h1 | h1
    · have hlt := hpre _ h1
      simp only at hlt
      omega
    · rcases List.mem_cons.mp h1 with h2 | h2
      · have : p.1 = y := by rw [← h2]
        rw [this]
      · have hle := hpost _ h2
        simp only at hle
        omega
  · intro y hy hcnt
    by_cases hxy : y = p.1
    · exact Or.inl hxy
    · right
      have hyitem := counterItems_mem_of_mem l y hy
      rw [heq] at hyitem
      rcases List.mem_append.mp hyitem with h1 | h1
      · exfalso
        have hlt := hpre _ h1
        simp only at hlt
        omega
      · rcases List.mem_cons.mp h1 with h2 | h2
        · exact absurd (congrArg Prod.fst h2) hxy
        · obtain ⟨A, b, Bb, hF, hA, hb, hB⟩ :=
            map_eq_append_cons (fun k => (k, l.count k)) (firsts l) pre p post heq
          have hbp : b = p.1 := by rw [← hb]
          rw [← hB] at h2
          obtain ⟨y', hy', hgy⟩ := List.mem_map.mp h2
          have hy'y : y' = y := by
            have := congrArg Prod.fst hgy
            simpa using this
          subst hy'y
          rw [hbp] at hF
          exact firsts_fo_aux l.length l le_rfl A Bb p.1 y' hF hy'

/-- C7: for every recombined line list, bodyFontSize is the rounded size
with the highest occurrence count, ties broken in favor of the value whose
first occurrence comes earliest, and likewise bodyColor over colors; the
empty list yields the defaults 12 and 0. -/
theorem body_style_first_mode (lines : List Line) :
    (lines = [] → body_font_size lines = 12 ∧ body_color lines = 0) ∧
    (lines ≠ [] →
      (∃ s : ℤ, body_font_size lines = (s : ℚ) ∧
        FirstMode (lines.map Line.size) s) ∧
      (∃ c : ℤ, body_color lines = c ∧
        FirstMode (lines.map Line.color) c)) := by
  constructor
  · rintro rfl
    constructor <;>
      simp [body_font_size, body_color, most_common1, counterItems, firsts,
        selectTop]
  · intro hne
    have hs : lines.map Line.size ≠ [] := by simpa using hne
    have hc : lines.map Line.color ≠ [] := by simpa using hne
    obtain ⟨s, hs1, hs2⟩ := most_common1_firstMode _ hs
    obtain ⟨c, hc1, hc2⟩ := most_common1_firstMode _ hc
    exact ⟨⟨s, by simp [body_font_size, hs1], hs2⟩,
      ⟨c, by simp [body_color, hc1], hc2⟩⟩

/-- A concrete two-line list for the C7 witness. -/
def c7Line (s : ℤ) (c : ℤ) : Line :=
  ⟨"x y".toList, s, "helv".toList, 0, c, ⟨0, 50, 10, 55⟩, 1, 100, 100⟩

/-- Witness for C7 on a concrete nonempty line list. -/
theorem body_style_first_mode_witness :
    ([c7Line 12 0, c7Line 14 1] : List Line) ≠ [] ∧
    (∃ s : ℤ, body_font_size [c7Line 12 0, c7Line 14 1] = (s : ℚ) ∧
      FirstMode ([c7Line 12 0, c7Line 14 1].map Line.size) s) :=
  ⟨by simp, ((body_style_first_mode [c7Line 12 0, c7Line 14 1]).2 (by simp)).1⟩

/-- The text contains at least one non-whitespace character. -/
def AnyNonWs (t : List Char) : Prop := ∃ c ∈ t, c.isWhitespace = false

theorem anyNonWs_append_left {t u : List Char} (h : AnyNonWs t) :
    AnyNonWs (t ++ u) := by
  obtain ⟨c, hc, hw⟩ := h
  exact ⟨c, List.mem_append_left _ hc, hw⟩

theorem anyNonWs_pyStrip (l : List Char) (h : pyStrip l ≠ []) :
    AnyNonWs (pyStrip l) := by
  cases hm : l.dropWhile Char.isWhitespace with
  | nil =>
    exfalso
    apply h
    unfold pyStrip
    rw [hm]
    rfl
  | cons c m1 =>
    have hc : c.isWhitespace = false := by
      have := List.head?_dropWhile_not Char.isWhitespace l
      rw [hm] at this
      simpa using this
    have hps : pyStrip l = ((c :: m1).reverse.dropWhile Char.isWhitespace).reverse := by
      unfold pyStrip
      rw [hm]
    rw [hps] at h ⊢
    have hdne : (c :: m1).reverse.dropWhile Char.isWhitespace ≠ [] := by
      intro hnil
      rw [hnil] at h
      simp at h
    obtain ⟨pref, hpref⟩ :
        (c :: m1).reverse.dropWhile Char.isWhitespace <:+ (c :: m1).reverse :=
      List.dropWhile_suffix _
    obtain ⟨y, hy⟩ :
        ∃ y, ((c :: m1).reverse.dropWhile Char.isWhitespace).getLast? = some y := by
      cases hl : ((c :: m1).reverse.dropWhile Char.isWhitespace).getLast? with
      | none => exact absurd (by simpa using List.getLast?_eq_none_iff.mp hl) hdne
      | some y => exact ⟨y, rfl⟩
    have hyc : y = c := by
      have h1 : (pref ++ (c :: m1).reverse.dropWhile Char.isWhitespace).getLast? =
          some c := by
        rw [hpref, List.reverse_cons, List.getLast?_concat]
      rw [List.getLast?_append, hy] at h1
      simpa using h1
    subst hyc
    exact ⟨y, List.mem_reverse.mpr (List.mem_of_getLast?_eq_some hy), hc⟩

theorem wordCount_pos_of_anyNonWs (t : List Char) (h : AnyNonWs t) :
    1 ≤ wordCount t := by
  obtain ⟨c, hc, hcw⟩ := h
  have hdw : t.dropWhile Char.isWhitespace ≠ [] := by
    intro hnil
    rw [List.dropWhile_eq_nil_iff.mp hnil c hc] at hcw
    exact absurd hcw (by simp)
  unfold wordCount
  rw [pyWords]
  split
  · next heq => exact absurd heq hdw
  · next c' r heq => simp

theorem assembleGo_group (ph pw : ℚ) :
    ∀ (rest : List ESpan) (curRev : List ESpan) (line : Line),
      line ∈ assembleGo ph pw curRev rest →
      ∃ g : List ESpan, line ∈ (lineOfGroup ph pw g).toList := by
  intro rest
  induction rest with
  | nil => intro curRev line h; exact ⟨curRev.reverse, h⟩
  | cons s rest ih =>
    intro curRev line h
    simp only [assembleGo] at h
    by_cases hadj : spanAdjacent (curRev.headD default) s = true
    · rw [if_pos hadj] at h
      exact ih _ _ h
    · rw [if_neg hadj] at h
      rcases List.mem_append.mp h with h1 | h1
      · exact ⟨curRev.reverse, h1⟩
      · exact ih _ _ h1

theorem lineOfGroup_text (ph pw : ℚ) (g : List ESpan) (line : Line)
    (h : line ∈ (lineOfGroup ph pw g).toList) :
    line.text = pyStrip ((g.map ESpan.text).flatten) ∧ line.text ≠ [] := by
  simp only [lineOfGroup] at h
  split at h
  · simp at h
  · next hne =>
    simp only [Option.toList_some, List.mem_singleton] at h
    subst h
    refine ⟨rfl, ?_⟩
    intro hnil
    apply hne
    rw [show pyStrip ((g.map ESpan.text).flatten) = [] from hnil]
    rfl

theorem extract_line_anyNonWs (pages : List TPage) (line : Line)
    (h : line ∈ extract_all_lines pages) : AnyNonWs line.text := by
  unfold extract_all_lines at h
  rw [List.mem_flatMap] at h
  obtain ⟨pr, _, hline⟩ := h
  unfold assemblePage at hline
  split at hline
  · simp at hline
  · next s rest =>
    obtain ⟨g, hg⟩ := assembleGo_group _ _ _ _ _ hline
    obtain ⟨htext, hne⟩ := lineOfGroup_text _ _ _ _ hg
    rw [htext]
    exact anyNonWs_pyStrip _ (htext ▸ hne)

theorem recombineGo_anyNonWs :
    ∀ (rest : List Line) (cur : Line), AnyNonWs cur.text →
      (∀ l ∈ rest, AnyNonWs l.text) →
      ∀ out ∈ recombineGo cur rest, AnyNonWs out.text := by
  intro rest
  induction rest with
  | nil =>
    intro cur hcur _ out hout
    simp only [recombineGo, List.mem_singleton] at hout
    exact hout ▸ hcur
  | cons nxt rest ih =>
    intro cur hcur hall out hout
    simp only [recombineGo] at hout
    by_cases hm : mergeCond cur nxt = true
    · rw [if_pos hm] at hout
      refine ih (mergeLines cur nxt) ?_ ?_ out hout
      · exact anyNonWs_append_left hcur
      · exact fun l hl => hall l (List.mem_cons_of_mem _ hl)
    · rw [if_neg hm] at hout
      rcases List.mem_cons.mp hout with rfl | hout2
      · exact hcur
      · exact ih nxt (hall nxt (List.mem_cons_self _ _))
          (fun l hl => hall l (List.mem_cons_of_mem _ hl)) out hout2

/-- C10: every line the heading classifier receives from the pipeline
(assembly followed by recombination) has at least one word, so the
minimum-word-count rejection branch of _is_heading never fires. -/
theorem min_word_branch_unreachable (pages : List TPage) (line : Line)
    (h : line ∈ recombine_lines (extract_all_lines pages)) :
    1 ≤ wordCount line.text ∧ min_word_reject line = false := by
  have hany : AnyNonWs line.text := by
    cases hE : extract_all_lines pages with
    | nil => rw [hE] at h; simp [recombine_lines] at h
    | cons l0 t =>
      rw [hE] at h
      simp only [recombine_lines] at h
      refine recombineGo_anyNonWs t l0 ?_ ?_ line h
      · exact extract_line_anyNonWs pages l0 (by rw [hE]; exact List.mem_cons_self _ _)
      · exact fun l hl =>
          extract_line_anyNonWs pages l (by rw [hE]; exact List.mem_cons_of_mem _ hl)
  have hwc := wordCount_pos_of_anyNonWs _ hany
  refine ⟨hwc, ?_⟩
  unfold min_word_reject min_word_count
  have hdec : decide (wordCount line.text < 1) = false := by
    simp
    omega
  rw [hdec]
  rfl

/-- A concrete one-span page for the C10 witness. -/
def c10Span : TSpan := ⟨"Ti".toList, 12, "f".toList, 0, 0, ⟨10, 50, 30, 55⟩⟩

/-- The page holding c10Span in a single text block. -/
def c10Page : TPage := ⟨100, 50, [⟨0, ⟨10, 50, 30, 55⟩, [TLine.mk [c10Span]]⟩]⟩

/-- The line the pipeline extracts from c10Page. -/
def c10Line : Line := ⟨"Ti".toList, 12, "f".toList, 0, 0, ⟨10, 50, 30, 55⟩, 1, 100, 50⟩

theorem pyRound_twelve : pyRound 12 = 12 := by
  unfold pyRound
  norm_num

/-- Witness for C10 on a concrete one-page document. -/
theorem min_word_branch_unreachable_witness :
    c10Line ∈ recombine_lines (extract_all_lines [c10Page]) ∧
    (1 ≤ wordCount c10Line.text ∧ min_word_reject c10Line = false) := by
  have hf : "f".toList.map Char.toLower = "f".toList := by decide
  have hps : pyStrip ['T', 'i'] = ['T', 'i'] := by decide
  have h1 : pageESpans 0 c10Page =
      [⟨"Ti".toList, 12, "f".toList, 0, 0, ⟨10, 50, 30, 55⟩, 1⟩] := by
    simp [pageESpans, c10Page, c10Span, pyRound_twelve, hf]
  have h2 : sortSpans [(⟨"Ti".toList, 12, "f".toList, 0, 0, ⟨10, 50, 30, 55⟩, 1⟩ : ESpan)] =
      [⟨"Ti".toList, 12, "f".toList, 0, 0, ⟨10, 50, 30, 55⟩, 1⟩] := by
    simp [sortSpans]
  have h3 : assemblePage 100 50
      [(⟨"Ti".toList, 12, "f".toList, 0, 0, ⟨10, 50, 30, 55⟩, 1⟩ : ESpan)] = [c10Line] := by
    simp [assemblePage, assembleGo, lineOfGroup, hps, c10Line]
  have hE : extract_all_lines [c10Page] = [c10Line] := by
    have he1 : extract_all_lines [c10Page] =
        assemblePage c10Page.height c10Page.width
          (sortSpans (pageESpans 0 c10Page)) := by
      simp [extract_all_lines, List.enum]
    rw [he1, h1, h2]
    exact h3
  have hmem : c10Line ∈ recombine_lines (extract_all_lines [c10Page]) := by
    rw [hE]
    simp [recombine_lines, recombineGo]
  exact ⟨hmem, min_word_branch_unreachable [c10Page] c10Line hmem⟩

theorem pyRound_mono : Monotone pyRound := by
  intro q q' hle
  have hff : ⌊q⌋ ≤ ⌊q'⌋ := Int.floor_le_floor hle
  unfold pyRound
  rcases lt_or_eq_of_le hff with hf | hf
  · have hL :
        (if q - ⌊q⌋ < 1 / 2 then ⌊q⌋
         else if 1 / 2 < q - ⌊q⌋ then ⌊q⌋ + 1
         else if ⌊q⌋ % 2 = 0 then ⌊q⌋ else ⌊q⌋ + 1) ≤ ⌊q⌋ + 1 := by
      split_ifs <;> omega
    have hR : ⌊q'⌋ ≤
        (if q' - ⌊q'⌋ < 1 / 2 then ⌊q'⌋
         else if 1 / 2 < q' - ⌊q'⌋ then ⌊q'⌋ + 1
         else if ⌊q'⌋ % 2 = 0 then ⌊q'⌋ else ⌊q'⌋ + 1) := by
      split_ifs <;> omega
    omega
  · have hrr : q - ⌊q⌋ ≤ q' - ⌊q'⌋ := by
      rw [← hf]
      linarith
    rw [← hf]
    split_ifs <;> first | omega | linarith

theorem pyRound_max (a b : ℚ) :
    pyRound (max a b) = max (pyRound a) (pyRound b) :=
  pyRound_mono.map_max

theorem pyRound_zero : pyRound 0 = 0 := by
  unfold pyRound
  norm_num

theorem pyRound_foldr_max (l : List ℚ) :
    pyRound (l.foldr max 0) = (l.map pyRound).foldr max 0 := by
  induction l with
  | nil => exact pyRound_zero
  | cons a l ih => simp [List.foldr_cons, pyRound_max, ih]

/-- The maximum rounded size among the spans of the scanned blocks. -/
def maxRoundedUpper (p : TPage) : ℤ :=
  ((upperRawSizes p).map pyRound).foldr max 0

/-- The candidate line texts of the scanned blocks, parametrized by the
rounded size that a line's first span must carry. -/
def sizeCandidates (p : TPage) (maxR : ℤ) : List (List Char) :=
  (upperBlocks p).flatMap (fun b =>
    b.lines.filterMap (fun ln =>
      match ln.spans with
      | [] => none
      | s0 :: _ =>
        if pyRound s0.size = maxR
        then some (pyStrip ((ln.spans.map TSpan.text).flatten))
        else none))

theorem title_candidates_eq (p : TPage) :
    title_candidates p = sizeCandidates p (pyRound (largest_size p)) := rfl

/-- The spans of the first page whose own bbox bottom lies above half the
page height, as the claim words the scan. -/
def claimUpperSpans (p : TPage) : List TSpan :=
  p.blocks.flatMap (fun b =>
    b.lines.flatMap (fun ln =>
      ln.spans.filter (fun s => decide (s.bbox.y1 < p.height / 2))))

/-- The maximum rounded size among those spans, as the claim words it. -/
def claimMaxRounded (p : TPage) : ℤ :=
  ((claimUpperSpans p).map (fun s => pyRound s.size)).foldr max 0

/-- Every first-page line whose first span carries that rounded size,
without any restriction to the upper half, as the claim words it. -/
def claimCandidates (p : TPage) : List (List Char) :=
  p.blocks.flatMap (fun b =>
    b.lines.filterMap (fun ln =>
      match ln.spans with
      | [] => none
      | s0 :: _ =>
        if pyRound s0.size = claimMaxRounded p
        then some (pyStrip ((ln.spans.map TSpan.text).flatten))
        else none))

/-- The fallback title exactly as claim C4 words it: join the texts of
every first-page line whose first span has the maximum rounded size among
the spans confined to the first page's upper half. -/
def titleClaimC4 (pages : List TPage) : List Char :=
  match pages with
  | [] => untitledFallback
  | p :: _ =>
    if (claimCandidates p).isEmpty then untitledFallback
    else List.intercalate [' '] (claimCandidates p)

/-- An upper-half span of rounded size 20 with text Big. -/
def c4SpanBig : TSpan := ⟨"Big".toList, 20, "F".toList, 0, 0, ⟨0, 10, 40, 20⟩⟩

/-- A lower-half span of the same rounded size 20 with text Low. -/
def c4SpanLow : TSpan := ⟨"Low".toList, 20, "F".toList, 0, 0, ⟨0, 60, 40, 70⟩⟩

/-- A page of height 100 with Big in an upper-half block and Low in a
lower-half block. -/
def c4Page : TPage :=
  ⟨100, 50, [⟨0, ⟨0, 0, 50, 40⟩, [TLine.mk [c4SpanBig]]⟩,
             ⟨0, ⟨0, 50, 50, 80⟩, [TLine.mk [c4SpanLow]]⟩]⟩

theorem pyRound_twenty : pyRound 20 = 20 := by
  unfold pyRound
  norm_num

/-- C4 counterexample: on c4Page without a metadata title the code returns
only the upper-half line Big, while the claim as stated collects every
first-page line with the maximal rounded size and returns Big Low. -/
theorem title_fallback_cex :
    get_document_title none [c4Page] = "Big".toList ∧
    titleClaimC4 [c4Page] = "Big Low".toList ∧
    ("Big".toList : List Char) ≠ "Big Low".toList := by
  have hub : upperBlocks c4Page = [⟨0, ⟨0, 0, 50, 40⟩, [TLine.mk [c4SpanBig]]⟩] := by
    have d1 : (decide ((40 : ℚ) < 100 / 2)) = true := by norm_num
    have d2 : (decide ((80 : ℚ) < 100 / 2)) = false := by norm_num
    simp [upperBlocks, c4Page, List.filter_cons, d1, d2]
  have hraw : upperRawSizes c4Page = [20] := by
    simp [upperRawSizes, hub, c4SpanBig]
  have hls : largest_size c4Page = 20 := by
    rw [largest_size, hraw]
    simp [max_eq_left (by norm_num : (0 : ℚ) ≤ 20)]
  have hstrip1 : pyStrip ['B', 'i', 'g'] = ['B', 'i', 'g'] := by decide
  have hstrip2 : pyStrip ['L', 'o', 'w'] = ['L', 'o', 'w'] := by decide
  have hcand : title_candidates c4Page = ["Big".toList] := by
    rw [title_candidates_eq, hls, pyRound_twenty]
    simp [sizeCandidates, hub, c4SpanBig, pyRound_twenty, hstrip1]
  have hcode : get_document_title none [c4Page] = "Big".toList := by
    show fallback_title [c4Page] = "Big".toList
    simp [fallback_title, hcand]
    decide
  have hspans : claimUpperSpans c4Page = [c4SpanBig] := by
    have d1 : (decide ((20 : ℚ) < 100 / 2)) = true := by norm_num
    have d2 : (decide ((70 : ℚ) < 100 / 2)) = false := by norm_num
    simp [claimUpperSpans, c4Page, List.filter_cons, c4SpanBig, c4SpanLow, d1, d2]
  have hmaxr : claimMaxRounded c4Page = 20 := by
    rw [claimMaxRounded, hspans]
    simp [c4SpanBig, pyRound_twenty]
  have hccand : claimCandidates c4Page = ["Big".toList, "Low".toList] := by
    simp only [claimCandidates, hmaxr]
    simp [c4Page, c4SpanBig, c4SpanLow, pyRound_twenty, hstrip1, hstrip2]
  have hclaim : titleClaimC4 [c4Page] = "Big Low".toList := by
    simp [titleClaimC4, hccand]
    decide
  exact ⟨hcode, hclaim, by decide⟩

/-- The document has no usable metadata title: it is absent, or blank, or
its trimmed form has length at most 5 or begins (case-insensitively) with
untitled. -/
def NoUsableMetaTitle : Option (List Char) → Prop
  | none => True
  | some t => t = [] ∨ pyStrip t = [] ∨ (pyStrip t).length ≤ 5 ∨
      leadsWith ((pyStrip t).map Char.toLower) "untitled".toList = true

/-- The amended fallback title: the single-space join of the texts of every
first-page line lying in a text block confined to the upper half (block
bbox bottom < pageHeight/2) whose first span carries the maximum rounded
size among the spans of those blocks; Untitled Document when there are no
pages or no such line. -/
def titleSpecAmended (pages : List TPage) : List Char :=
  match pages with
  | [] => untitledFallback
  | p :: _ =>
    if (sizeCandidates p (maxRoundedUpper p)).isEmpty then untitledFallback
    else List.intercalate [' '] (sizeCandidates p (maxRoundedUpper p))

theorem fallback_title_eq_spec (pages : List TPage) :
    fallback_title pages = titleSpecAmended pages := by
  cases pages with
  | nil => rfl
  | cons p rest =>
    have hmax : pyRound (largest_size p) = maxRoundedUpper p :=
      pyRound_foldr_max (upperRawSizes p)
    simp only [fallback_title, titleSpecAmended, title_candidates_eq, hmax]

/-- C4 amended: for every document without a usable metadata title, the
resolved title is the titleSpecAmended fallback (scan and collection both
confined to upper-half text blocks), with the literal Untitled Document
fallback for zero pages or no matching line. -/
theorem title_fallback_amended (meta : Option (List Char)) (pages : List TPage)
    (h : NoUsableMetaTitle meta) :
    get_document_title meta pages = titleSpecAmended pages := by
  cases meta with
  | none => exact fallback_title_eq_spec pages
  | some t =>
    simp only [NoUsableMetaTitle] at h
    simp only [get_document_title]
    by_cases hemp : t.isEmpty = true
    · rw [if_pos hemp]
      exact fallback_title_eq_spec pages
    · rw [if_neg hemp]
      have hcond : (!(pyStrip t).isEmpty && decide (5 < (pyStrip t).length) &&
          !(leadsWith ((pyStrip t).map Char.toLower) "untitled".toList)) = false := by
        rcases h with h | h | h | h
        · exact absurd (by rw [h]; rfl) hemp
        · simp [h]
        · have : decide (5 < (pyStrip t).length) = false := by
            simp
            omega
          simp [this]
        · have h' : leadsWith ((pyStrip t).map Char.toLower)
              ['u', 'n', 't', 'i', 't', 'l', 'e', 'd'] = true := by simpa using h
          simp [h']
      rw [if_neg (fun hc => absurd (hcond.symm.trans hc) (by decide))]
      exact fallback_title_eq_spec pages

/-- Witness for the amended C4 with a too-short metadata title. -/
theorem title_fallback_amended_witness :
    NoUsableMetaTitle (some "x".toList) ∧
    get_document_title (some "x".toList) [c4Page] = titleSpecAmended [c4Page] :=
  ⟨Or.inr (Or.inr (Or.inl (by decide))),
    title_fallback_amended (some "x".toList) [c4Page]
      (Or.inr (Or.inr (Or.inl (by decide))))⟩
